import Mathlib

/-!
Verification of the Ai-Agents-Builder conversation state engine and
deployment token authority against the repository.

The repository ships the Next.js frontend (chat-interface.tsx, page.tsx,
deploy-agent.tsx) under src/; the FastAPI backend that implements the
MessageLog / ConversationController / TokenAuthority operations is only
described by the documentation (docs/ARCHITECTURE.md, docs/API_ENDPOINTS.md)
and the specification. Frontend behaviour (handleSend, saveEdit,
handleRegenerate, the page-level handlers) is embedded directly from the
TypeScript source; the backend operations are modelled from the spec, as
noted on each definition.
-/

namespace AgentBuilder

/-- Message role: the TypeScript type is the union "user" | "assistant"
(frontend lib/types.ts, spec section 3). -/
inductive Role where
  | user : Role
  | assistant : Role
deriving DecidableEq, Repr

/-- Modelled from the spec: spec section 6 gives the persisted Message shape
of the backend MessageLog as { index : int, role, content : string,
timestamp }; the backend chat service storing it (agent_service.py)
is not under src/. Timestamps are abstracted to naturals. -/
structure LogMessage where
  index : Nat
  role : Role
  content : String
  timestamp : Nat
deriving DecidableEq, Repr

/-- Default message used by positional lookups with a fallback. -/
def dmsg : LogMessage := ⟨0, Role.user, "", 0⟩

/-- Modelled from the spec: MessageLog.append "adds at the next index; never
reorders" (spec section 4.1); the backend save_chat_message is not under
src/. The role argument is already of the two-valued Role type, so the
InvalidRole failure of the spec cannot arise here. -/
def appendMessage (log : List LogMessage) (role : Role) (content : String)
    (timestamp : Nat) : List LogMessage :=
  log ++ [⟨log.length, role, content, timestamp⟩]

/-- Errors of the conversation engine, from the taxonomy of spec section 7. -/
inductive ConvError where
  | IndexOutOfRange : ConvError
  | RoleMismatch : ConvError
  | NothingToRegenerate : ConvError
  | CompletionFailure : ConvError
deriving DecidableEq, Repr

/-- Modelled from the spec: MessageLog.truncateAfter(index) "drops every
message with position > index; fails with IndexOutOfRange if index >=
current length or < -1" (spec section 4.1); the backend
truncate_chat_history is not under src/. The index is an integer so that
-1 (empty the log) is expressible. -/
def truncateAfter (log : List LogMessage) (index : Int) :
    Except ConvError (List LogMessage) :=
  if (log.length : Int) ≤ index ∨ index < -1 then
    Except.error ConvError.IndexOutOfRange
  else
    Except.ok (log.take (index + 1).toNat)

/-- Replace the content of the message at a zero-based position, leaving
every other message (and the index and timestamp fields of the replaced
message) unchanged. Used by the edit operation of spec section 4.2. -/
def setContent : List LogMessage → Nat → String → List LogMessage
  | [], _, _ => []
  | m :: ms, 0, c => { m with content := c } :: ms
  | m :: ms, n + 1, c => m :: setContent ms n c

@[simp]
theorem setContent_nil (n : Nat) (c : String) : setContent [] n c = [] := rfl

@[simp]
theorem setContent_length (log : List LogMessage) (n : Nat) (c : String) :
    (setContent log n c).length = log.length := by
  induction log generalizing n with
  | nil => rfl
  | cons m ms ih =>
    cases n with
    | zero => simp [setContent]
    | succ k => simp [setContent, ih]

theorem setContent_getD_eq (log : List LogMessage) (n : Nat) (c : String)
    (h : n < log.length) :
    (setContent log n c).getD n dmsg = { log.getD n dmsg with content := c } := by
  induction log generalizing n with
  | nil => simp at h
  | cons m ms ih =>
    cases n with
    | zero => simp [setContent]
    | succ k =>
      simp only [setContent, List.getD_cons_succ]
      exact ih k (by simpa using h)

theorem setContent_getD_ne (log : List LogMessage) (n i : Nat) (c : String)
    (hne : i ≠ n) :
    (setContent log n c).getD i dmsg = log.getD i dmsg := by
  induction log generalizing n i with
  | nil => simp
  | cons m ms ih =>
    cases n with
    | zero =>
      cases i with
      | zero => exact absurd rfl hne
      | succ j => simp [setContent]
    | succ k =>
      cases i with
      | zero => simp [setContent]
      | succ j =>
        simp only [setContent, List.getD_cons_succ]
        exact ih k j (fun hc => hne (by simpa using hc))

/-- Session phases of the controller state machine (spec section 4.3):
every operation starts and finishes in IDLE; AWAITING_COMPLETION is the
transient phase while the completion collaborator runs, which in this
atomic embedding happens inside a single operation. -/
inductive Phase where
  | IDLE : Phase
  | AWAITING_COMPLETION : Phase
deriving DecidableEq, Repr

/-- A chat session as seen by the controller: its phase and message log. -/
structure ConvSession where
  phase : Phase
  log : List LogMessage
deriving DecidableEq, Repr

/-- The completion collaborator (spec section 6) is unreliable: an oracle
lists the outcome of each successive invocation, some reply for success,
none for CompletionFailure. Each controller operation consumes at most one
entry, so the oracle also witnesses that no call is silently retried. -/
abbrev CompletionOracle := List (Option String)

/-- Result of one controller operation: remaining oracle, new session,
and the surfaced outcome. -/
structure ConvResult where
  oracle : CompletionOracle
  session : ConvSession
  outcome : Except ConvError Unit
deriving Repr

/-- Modelled from the spec: ConversationController.sendMessage (spec section
4.3) "appends a user Message; transitions to AWAITING_COMPLETION; invokes
the completion collaborator; on success appends the assistant reply and
returns to IDLE; on completion failure, the user message is retained
(visible failed turn) and the session returns to IDLE with an error
surfaced to the caller - no silent retry". The backend route handler
(api/routes/chat.py) is not under src/. An exhausted oracle counts as a
failed completion call. -/
def sendMessage (oracle : CompletionOracle) (s : ConvSession) (content : String)
    (now : Nat) : ConvResult :=
  let log1 := appendMessage s.log Role.user content now
  match oracle with
  | [] => ⟨[], ⟨Phase.IDLE, log1⟩, Except.error ConvError.CompletionFailure⟩
  | some reply :: rest =>
      ⟨rest, ⟨Phase.IDLE, appendMessage log1 Role.assistant reply now⟩,
        Except.ok ()⟩
  | none :: rest =>
      ⟨rest, ⟨Phase.IDLE, log1⟩, Except.error ConvError.CompletionFailure⟩

/-- Modelled from the spec: ConversationController.editMessage (spec section
4.3) "requires the message at index to have role user (else RoleMismatch);
calls truncateAfter(index) to drop everything after it; replaces the
content at index; then performs the same completion + append sequence as
sendMessage, producing exactly one new assistant message". The backend
route handler (api/routes/chat.py) is not under src/. On any failure the
session is left unchanged except that a completion failure keeps the
truncated, edited log (same policy as sendMessage: the failed turn stays
visible). -/
def editMessage (oracle : CompletionOracle) (s : ConvSession) (index : Nat)
    (newContent : String) (now : Nat) : ConvResult :=
  if index < s.log.length then
    if (s.log.getD index dmsg).role = Role.user then
      match truncateAfter s.log (index : Int) with
      | Except.error _ => ⟨oracle, s, Except.error ConvError.IndexOutOfRange⟩
      | Except.ok truncated =>
          let replaced := setContent truncated index newContent
          match oracle with
          | [] => ⟨[], ⟨Phase.IDLE, replaced⟩,
              Except.error ConvError.CompletionFailure⟩
          | some reply :: rest =>
              ⟨rest, ⟨Phase.IDLE, appendMessage replaced Role.assistant reply now⟩,
                Except.ok ()⟩
          | none :: rest =>
              ⟨rest, ⟨Phase.IDLE, replaced⟩,
                Except.error ConvError.CompletionFailure⟩
    else ⟨oracle, s, Except.error ConvError.RoleMismatch⟩
  else ⟨oracle, s, Except.error ConvError.IndexOutOfRange⟩

/-- Modelled from the spec: ConversationController.regenerateLast (spec
section 4.3) "requires the log to end in an assistant message (else
NothingToRegenerate); truncates that trailing assistant message only;
re-invokes completion using the (unchanged) history ending at the last
user message; appends a new assistant message". The backend route handler
(api/routes/chat.py) is not under src/; the frontend side of the flow is
handleRegenerate (chat-interface.tsx lines 197-224), which likewise slices
off the trailing assistant message before the call. -/
def regenerateLast (oracle : CompletionOracle) (s : ConvSession) (now : Nat) :
    ConvResult :=
  match s.log.getLast? with
  | none => ⟨oracle, s, Except.error ConvError.NothingToRegenerate⟩
  | some m =>
    if m.role = Role.assistant then
      let truncated := s.log.dropLast
      match oracle with
      | [] => ⟨[], ⟨Phase.IDLE, truncated⟩,
          Except.error ConvError.CompletionFailure⟩
      | some reply :: rest =>
          ⟨rest, ⟨Phase.IDLE, appendMessage truncated Role.assistant reply now⟩,
            Except.ok ()⟩
      | none :: rest =>
          ⟨rest, ⟨Phase.IDLE, truncated⟩,
            Except.error ConvError.CompletionFailure⟩
    else ⟨oracle, s, Except.error ConvError.NothingToRegenerate⟩

/-- Indices are dense, zero-based and strictly increasing: the message at
every position i carries index i (spec section 3 invariants). -/
def denseIndices (log : List LogMessage) : Prop :=
  ∀ i, i < log.length → (log.getD i dmsg).index = i

instance (log : List LogMessage) : Decidable (denseIndices log) :=
  Nat.decidableBallLT log.length (fun i _ => (log.getD i dmsg).index = i)

/-- One mutating operation of the controller, for stating properties over
arbitrary finite operation sequences (spec section 8). -/
inductive Op where
  | send (content : String) (now : Nat) : Op
  | edit (index : Nat) (content : String) (now : Nat) : Op
  | regen (now : Nat) : Op

/-- Run one operation against a session, threading the completion oracle. -/
def applyOp (oracle : CompletionOracle) (s : ConvSession) : Op → ConvResult
  | Op.send content now => sendMessage oracle s content now
  | Op.edit index content now => editMessage oracle s index content now
  | Op.regen now => regenerateLast oracle s now

/-- Run a finite sequence of operations, threading oracle and session. -/
def applyOps (oracle : CompletionOracle) (s : ConvSession) :
    List Op → CompletionOracle × ConvSession
  | [] => (oracle, s)
  | op :: ops =>
      let r := applyOp oracle s op
      applyOps r.oracle r.session ops

/-- Modelled from the spec: DeploymentToken { value, agentId, issuedAt,
expiresAt, revoked } (spec section 3); the backend token_generator.py and
deployment route are not under src/. -/
structure DeploymentToken where
  value : String
  agentId : String
  issuedAt : Nat
  expiresAt : Nat
  revoked : Bool
deriving DecidableEq, Repr

/-- The token authority state: every token ever issued. -/
structure TokenStore where
  tokens : List DeploymentToken
deriving DecidableEq, Repr

/-- Outcome of TokenAuthority.validate (spec section 4.4). -/
inductive ValidateResult where
  | ok : String → ValidateResult
  | TokenNotFound : ValidateResult
  | TokenRevoked : ValidateResult
  | TokenExpired : ValidateResult
deriving DecidableEq, Repr

/-- Modelled from the spec: TokenAuthority.validate "looks up the token;
returns the associated agentId on success; fails with TokenNotFound if the
value does not match any issued token, TokenRevoked if it matches a token
superseded by a later issue, TokenExpired if now > expiresAt" (spec
section 4.4); the backend is not under src/. -/
def validate (store : TokenStore) (now : Nat) (value : String) : ValidateResult :=
  match store.tokens.find? (fun t => t.value == value) with
  | none => ValidateResult.TokenNotFound
  | some t =>
      if t.revoked then ValidateResult.TokenRevoked
      else if t.expiresAt < now then ValidateResult.TokenExpired
      else ValidateResult.ok t.agentId

/-- Mark every token of the given agent revoked, leaving other tokens
untouched. -/
def revokeAgentTokens (store : TokenStore) (agentId : String) : TokenStore :=
  ⟨store.tokens.map (fun t =>
    if t.agentId == agentId then { t with revoked := true } else t)⟩

/-- Modelled from the spec: TokenAuthority.issue "generates a new token
value, sets issuedAt = now, expiresAt = now + configuredTTL, revokes any
prior token for that agent atomically, persists, returns the new token"
(spec section 4.4); regenerate has the identical effect. The fresh random
value is passed in as a parameter. -/
def issue (store : TokenStore) (agentId : String) (value : String)
    (now ttl : Nat) : TokenStore :=
  ⟨⟨value, agentId, now, now + ttl, false⟩ ::
    (revokeAgentTokens store agentId).tokens⟩

/-- A token counts as valid for authorization at an instant when it is
neither revoked nor expired (spec section 3). -/
def isActive (now : Nat) (t : DeploymentToken) : Bool :=
  !t.revoked && decide (now ≤ t.expiresAt)

/-- At most one token per agent is considered valid for authorization at
the given instant (spec section 3 invariant). -/
def atMostOneActive (store : TokenStore) (now : Nat) : Prop :=
  ∀ a : String,
    (store.tokens.filter (fun t => t.agentId == a && isActive now t)).length ≤ 1

/-! ## Frontend chat interface, embedded from the TypeScript source -/

/-- Frontend message shape (frontend lib/types.ts as used by
chat-interface.tsx): { id, role, content, timestamp }. -/
structure Msg where
  id : String
  role : Role
  content : String
  timestamp : Nat
deriving DecidableEq, Repr

/-- Frontend chat session shape as used by chat-interface.tsx:
{ id, title, messages, updatedAt }. -/
structure ChatSession where
  id : String
  title : String
  messages : List Msg
  updatedAt : Nat
deriving DecidableEq, Repr

/-- The lookup sessions.find(s => s.id === currentSessionId) of
chat-interface.tsx line 79: a null currentSessionId matches nothing. -/
def findCurrentSession (sessions : List ChatSession)
    (currentSessionId : Option String) : Option ChatSession :=
  match currentSessionId with
  | none => none
  | some cid => sessions.find? (fun s => s.id == cid)

/-- The component state read and written by handleSend
(chat-interface.tsx lines 67-79 and 85-118). -/
structure ChatUIState where
  message : String
  isLoading : Bool
  isThinking : Bool
  sessions : List ChatSession
  currentSessionId : Option String
deriving DecidableEq, Repr

/-- handleSend, embedded from chat-interface.tsx lines 85-118: bail out
when the trimmed input is empty or a completion is in flight; otherwise
clear the input, optimistically append a temp user message to the current
session, set isThinking, and call onSendMessage with the trimmed content.
The returned option is the content passed to onSendMessage (none when no
call is issued). -/
def handleSend (st : ChatUIState) (now : Nat) : ChatUIState × Option String :=
  if st.message.trim = "" ∨ st.isLoading = true ∨ st.isThinking = true then
    (st, none)
  else
    let messageContent := st.message.trim
    let st1 := { st with message := "" }
    let st2 :=
      match findCurrentSession st.sessions st.currentSessionId with
      | some _ =>
          let userMsg : Msg :=
            ⟨"temp-msg-" ++ toString now, Role.user, messageContent, now⟩
          { st1 with sessions := st1.sessions.map (fun (s : ChatSession) =>
              if st.currentSessionId == some s.id then
                { s with messages := s.messages ++ [userMsg] }
              else s) }
      | none => st1
    ({ st2 with isThinking := true }, some messageContent)

/-- The component state read and written by saveEdit
(chat-interface.tsx lines 67-79 and 126-185). -/
structure EditorState where
  sessions : List ChatSession
  currentSessionId : Option String
  editingId : Option String
  editContent : String
  originalEditContent : String
deriving DecidableEq, Repr

/-- Reset of the editing fields performed on every exit path of saveEdit
(chat-interface.tsx lines 134-137, 175-177, 180-182). -/
def closeEdit (st : EditorState) : EditorState :=
  { st with editingId := none, editContent := "", originalEditContent := "" }

/-- saveEdit, embedded from chat-interface.tsx lines 126-185: guarded on a
message being edited, non-empty trimmed content and an existing current
session; only when the trimmed content differs from the original trimmed
content does it locate the message by id, rewrite its content, drop every
later message (slice(0, messageIndex + 1)) and call
onEditMessage(messageIndex, editedContent). The returned option is that
backend call (none when no call is issued). -/
def saveEdit (st : EditorState) : EditorState × Option (Nat × String) :=
  match st.editingId with
  | none => (st, none)
  | some eid =>
    if st.editContent.trim = "" then (st, none)
    else
      match findCurrentSession st.sessions st.currentSessionId with
      | none => (st, none)
      | some cs =>
        if st.editContent.trim ≠ st.originalEditContent.trim then
          match cs.messages.findIdx? (fun m => m.id == eid) with
          | some messageIndex =>
              let editedContent := st.editContent.trim
              let updatedSessions := st.sessions.map (fun (s : ChatSession) =>
                if st.currentSessionId == some s.id then
                  { s with messages :=
                      (s.messages.mapIdx (fun idx msg =>
                        if idx = messageIndex then
                          { msg with content := editedContent }
                        else msg)).take (messageIndex + 1) }
                else s)
              ({ closeEdit st with sessions := updatedSessions },
                some (messageIndex, editedContent))
          | none => (closeEdit st, none)
        else (closeEdit st, none)

/-! ## Positional lookup lemmas -/

theorem getD_append_left (l l' : List LogMessage) (i : Nat) (h : i < l.length) :
    (l ++ l').getD i dmsg = l.getD i dmsg := by
  induction l generalizing i with
  | nil => simp at h
  | cons x xs ih =>
    cases i with
    | zero => simp
    | succ j =>
      simp only [List.cons_append, List.getD_cons_succ]
      exact ih j (by simpa using h)

theorem getD_append_length (l : List LogMessage) (m : LogMessage) :
    (l ++ [m]).getD l.length dmsg = m := by
  induction l with
  | nil => simp
  | cons x xs ih => simp [ih]

theorem getD_take (l : List LogMessage) (n i : Nat) (h : i < n) :
    (l.take n).getD i dmsg = l.getD i dmsg := by
  induction l generalizing n i with
  | nil => simp
  | cons x xs ih =>
    cases n with
    | zero => exact absurd h (Nat.not_lt_zero i)
    | succ k =>
      cases i with
      | zero => simp
      | succ j =>
        simp only [List.take_succ_cons, List.getD_cons_succ]
        exact ih k j (by simpa using h)

/-! ## Preservation of dense indices -/

theorem denseIndices_append (log : List LogMessage) (role : Role)
    (content : String) (now : Nat) (h : denseIndices log) :
    denseIndices (appendMessage log role content now) := by
  intro i hi
  simp only [appendMessage, List.length_append, List.length_cons,
    List.length_nil] at hi
  rcases Nat.lt_succ_iff_lt_or_eq.mp (by simpa using hi) with hlt | heq
  · rw [appendMessage, getD_append_left log _ i hlt]
    exact h i hlt
  · subst heq
    rw [appendMessage, getD_append_length]

theorem denseIndices_take (log : List LogMessage) (n : Nat)
    (h : denseIndices log) : denseIndices (log.take n) := by
  intro i hi
  have hin : i < n := lt_of_lt_of_le hi (by simp [List.length_take_le n log])
  have hilen : i < log.length := by
    have := hi
    simp only [List.length_take, lt_min_iff] at this
    exact this.2
  rw [getD_take log n i hin]
  exact h i hilen

theorem denseIndices_setContent (log : List LogMessage) (n : Nat) (c : String)
    (h : denseIndices log) : denseIndices (setContent log n c) := by
  intro i hi
  rw [setContent_length] at hi
  by_cases hin : i = n
  · subst hin
    rw [setContent_getD_eq log i c hi]
    exact h i hi
  · rw [setContent_getD_ne log n i c hin]
    exact h i hi

theorem denseIndices_dropLast (log : List LogMessage)
    (h : denseIndices log) : denseIndices log.dropLast := by
  rw [List.dropLast_eq_take]
  exact denseIndices_take log _ h

/-! ## Claim theorems -/

/-- Claim C6: when the completion collaborator call of sendMessage fails,
the appended user message is retained in the log as a visible failed turn
(the new log is the old log plus exactly that user message, so no message
already in the log is removed), the session returns to IDLE, the
CompletionFailure error is surfaced to the caller, and exactly one oracle
entry is consumed, so the failed call is not silently retried. -/
theorem sendMessage_failure_keeps_user_message (rest : CompletionOracle)
    (s : ConvSession) (content : String) (now : Nat) :
    (sendMessage (none :: rest) s content now).outcome
        = Except.error ConvError.CompletionFailure ∧
    (sendMessage (none :: rest) s content now).session.phase = Phase.IDLE ∧
    (sendMessage (none :: rest) s content now).session.log
        = s.log ++ [⟨s.log.length, Role.user, content, now⟩] ∧
    (sendMessage (none :: rest) s content now).oracle = rest :=
  ⟨rfl, rfl, rfl, rfl⟩

/-- Claim C7: truncateAfter(index) fails with IndexOutOfRange exactly when
index is at least the current length or below -1; on success it keeps
precisely the messages at positions at most index, unchanged, and
truncateAfter(-1) empties the log. -/
theorem truncateAfter_spec (log : List LogMessage) (index : Int) :
    (truncateAfter log index = Except.error ConvError.IndexOutOfRange
        ↔ ((log.length : Int) ≤ index ∨ index < -1)) ∧
    (∀ res, truncateAfter log index = Except.ok res →
        res = log.take (index + 1).toNat ∧
        (∀ i, i < res.length → res.getD i dmsg = log.getD i dmsg) ∧
        (∀ i, i < log.length → ((i : Int) ≤ index ↔ i < res.length))) ∧
    truncateAfter log (-1) = Except.ok [] := by
  refine ⟨?_, ?_, ?_⟩
  · unfold truncateAfter
    split
    · simpa
    · next hcond => simp [hcond]
  · intro res hres
    unfold truncateAfter at hres
    split at hres
    · exact absurd hres (by simp)
    · next hcond =>
      have hok : log.take (index + 1).toNat = res := by
        simpa using hres
      push_neg at hcond
      obtain ⟨hlen, hge⟩ := hcond
      refine ⟨hok.symm, ?_, ?_⟩
      · intro i hi
        rw [← hok]
        rw [← hok] at hi
        have hlt : i < (index + 1).toNat := by
          rw [List.length_take] at hi
          omega
        exact getD_take log _ i hlt
      · intro i hilen
        rw [← hok, List.length_take]
        omega
  · unfold truncateAfter
    rw [if_neg (by omega)]
    norm_num

/-- Witness for C7: on a one-message log, index 1 is rejected as out of
range and index -1 empties the log. -/
theorem truncateAfter_spec_witness :
    truncateAfter [⟨0, Role.user, "a", 0⟩] 1
      = Except.error ConvError.IndexOutOfRange ∧
    truncateAfter [⟨0, Role.user, "a", 0⟩] (-1) = Except.ok [] :=
  ⟨(truncateAfter_spec [⟨0, Role.user, "a", 0⟩] 1).1.mpr (by decide),
    (truncateAfter_spec [⟨0, Role.user, "a", 0⟩] 1).2.2⟩

/-- Claim C9: handleSend with an input that trims to empty, or while a
completion is already in flight (loading or thinking), performs no state
change at all and issues no onSendMessage call. -/
theorem handleSend_noop (st : ChatUIState) (now : Nat)
    (h : st.message.trim = "" ∨ st.isLoading = true ∨ st.isThinking = true) :
    handleSend st now = (st, none) := by
  unfold handleSend
  rw [if_pos h]

/-- Witness for C9 at a concrete state with a completion in flight. -/
theorem handleSend_noop_witness :
    ((⟨"hello", false, true, [], none⟩ : ChatUIState).isThinking = true) ∧
    handleSend ⟨"hello", false, true, [], none⟩ 0
      = (⟨"hello", false, true, [], none⟩, none) :=
  ⟨rfl, handleSend_noop ⟨"hello", false, true, [], none⟩ 0 (Or.inr (Or.inr rfl))⟩

/-- Claim C10: saving an edit whose trimmed content equals the original
trimmed content is an identity operation on the session list (so no
truncation happens) and issues no backend edit call; only an
actually-changed trimmed content can produce the truncate-and-complete
call. -/
theorem saveEdit_unchanged_noop (st : EditorState)
    (h : st.editContent.trim = st.originalEditContent.trim) :
    (saveEdit st).1.sessions = st.sessions ∧ (saveEdit st).2 = none := by
  obtain ⟨sessions, csid, eid, ec, oec⟩ := st
  simp only at h
  cases eid with
  | none => exact ⟨rfl, rfl⟩
  | some e =>
    simp only [saveEdit]
    by_cases hempty : ec.trim = ""
    · rw [if_pos hempty]
      exact ⟨rfl, rfl⟩
    · rw [if_neg hempty]
      cases findCurrentSession sessions csid with
      | none => exact ⟨rfl, rfl⟩
      | some cs =>
        dsimp only
        rw [if_neg (fun hne => hne h)]
        exact ⟨rfl, rfl⟩

/-- Witness for C10 at a concrete editor state whose edited content equals
the original. -/
theorem saveEdit_unchanged_noop_witness :
    (saveEdit ⟨[⟨"s1", "t", [⟨"m1", Role.user, "Hi", 0⟩], 0⟩],
        some "s1", some "m1", "Hi", "Hi"⟩).1.sessions
      = [⟨"s1", "t", [⟨"m1", Role.user, "Hi", 0⟩], 0⟩] ∧
    (saveEdit ⟨[⟨"s1", "t", [⟨"m1", Role.user, "Hi", 0⟩], 0⟩],
        some "s1", some "m1", "Hi", "Hi"⟩).2 = none :=
  saveEdit_unchanged_noop
    ⟨[⟨"s1", "t", [⟨"m1", Role.user, "Hi", 0⟩], 0⟩],
      some "s1", some "m1", "Hi", "Hi"⟩ rfl

/-- Claim C4: validate on a token string matching no issued token returns
TokenNotFound (so never TokenExpired), and TokenExpired is only ever
returned for a matching, unrevoked token whose expiry lies before the
current instant. -/
theorem validate_unknown_token (store : TokenStore) (now : Nat) (value : String)
    (h : ∀ t ∈ store.tokens, t.value ≠ value) :
    validate store now value = ValidateResult.TokenNotFound ∧
    (∀ v n, validate store n v = ValidateResult.TokenExpired →
      ∃ t ∈ store.tokens, t.value = v ∧ t.revoked = false ∧ t.expiresAt < n) := by
  constructor
  · unfold validate
    have hnone : store.tokens.find? (fun t => t.value == value) = none := by
      rw [List.find?_eq_none]
      intro t ht
      simpa using h t ht
    rw [hnone]
  · intro v n hv
    unfold validate at hv
    cases hfind : store.tokens.find? (fun t => t.value == v) with
    | none => rw [hfind] at hv; simp at hv
    | some t =>
        rw [hfind] at hv
        dsimp only at hv
        split_ifs at hv with hrev hexp
        exact ⟨t, List.mem_of_find?_eq_some hfind,
          by simpa using List.find?_some hfind, by simpa using hrev, hexp⟩

/-- Witness for C4 at a concrete store and an unknown token string. -/
theorem validate_unknown_token_witness :
    validate ⟨[⟨"tok1", "A", 0, 100, false⟩]⟩ 50 "tok2"
      = ValidateResult.TokenNotFound :=
  (validate_unknown_token ⟨[⟨"tok1", "A", 0, 100, false⟩]⟩ 50 "tok2"
    (by decide)).1

/-- A valid position makes truncateAfter succeed with the prefix up to and
including that position. -/
theorem truncateAfter_ok_of_lt (log : List LogMessage) (index : Nat)
    (h : index < log.length) :
    truncateAfter log (index : Int) = Except.ok (log.take (index + 1)) := by
  unfold truncateAfter
  rw [if_neg (by omega)]
  have htn : ((index : Int) + 1).toNat = index + 1 := by omega
  rw [htn]

/-- Claim C1: a successful editMessage at a valid user-message index i with
content c yields a log of length exactly i + 2 whose message at i has
content c and role user, followed by exactly one new assistant message
carrying the fresh completion reply. -/
theorem editMessage_success_shape (rest : CompletionOracle) (reply : String)
    (s : ConvSession) (index : Nat) (c : String) (now : Nat)
    (hidx : index < s.log.length)
    (hrole : (s.log.getD index dmsg).role = Role.user) :
    (editMessage (some reply :: rest) s index c now).outcome = Except.ok () ∧
    (editMessage (some reply :: rest) s index c now).session.log.length
      = index + 2 ∧
    ((editMessage (some reply :: rest) s index c now).session.log.getD index
      dmsg).content = c ∧
    ((editMessage (some reply :: rest) s index c now).session.log.getD index
      dmsg).role = Role.user ∧
    ((editMessage (some reply :: rest) s index c now).session.log.getD
      (index + 1) dmsg).role = Role.assistant ∧
    ((editMessage (some reply :: rest) s index c now).session.log.getD
      (index + 1) dmsg).content = reply := by
  have hmain : editMessage (some reply :: rest) s index c now =
      ⟨rest, ⟨Phase.IDLE,
        appendMessage (setContent (s.log.take (index + 1)) index c)
          Role.assistant reply now⟩, Except.ok ()⟩ := by
    unfold editMessage
    rw [if_pos hidx, if_pos hrole, truncateAfter_ok_of_lt s.log index hidx]
  have hTlen : (s.log.take (index + 1)).length = index + 1 := by
    rw [List.length_take]; omega
  have hRlen : (setContent (s.log.take (index + 1)) index c).length
      = index + 1 := by
    rw [setContent_length, hTlen]
  have hgetR : (appendMessage (setContent (s.log.take (index + 1)) index c)
        Role.assistant reply now).getD index dmsg
      = { (s.log.take (index + 1)).getD index dmsg with content := c } := by
    rw [appendMessage,
      getD_append_left _ _ index (by rw [hRlen]; omega),
      setContent_getD_eq _ index c (by rw [hTlen]; omega)]
  have hgetT : (s.log.take (index + 1)).getD index dmsg
      = s.log.getD index dmsg :=
    getD_take s.log (index + 1) index (by omega)
  have hgetLast : (appendMessage (setContent (s.log.take (index + 1)) index c)
        Role.assistant reply now).getD (index + 1) dmsg
      = ⟨index + 1, Role.assistant, reply, now⟩ := by
    set R := setContent (s.log.take (index + 1)) index c with hRdef
    rw [appendMessage, ← hRlen, getD_append_length]
  rw [hmain]
  refine ⟨rfl, ?_, ?_, ?_, ?_, ?_⟩
  · show (appendMessage _ Role.assistant reply now).length = index + 2
    rw [appendMessage, List.length_append, hRlen]
    rfl
  · show ((appendMessage _ Role.assistant reply now).getD index dmsg).content = c
    rw [hgetR]
  · show ((appendMessage _ Role.assistant reply now).getD index dmsg).role
      = Role.user
    rw [hgetR]
    show ((s.log.take (index + 1)).getD index dmsg).role = Role.user
    rw [hgetT]
    exact hrole
  · show ((appendMessage _ Role.assistant reply now).getD (index + 1)
        dmsg).role = Role.assistant
    rw [hgetLast]
  · show ((appendMessage _ Role.assistant reply now).getD (index + 1)
        dmsg).content = reply
    rw [hgetLast]

/-- Witness for C1 on a concrete two-message session edited at index 0. -/
theorem editMessage_success_shape_witness :
    (0 < (⟨Phase.IDLE,
        [⟨0, Role.user, "Hi", 0⟩, ⟨1, Role.assistant, "r", 1⟩]⟩ :
        ConvSession).log.length) ∧
    (editMessage [some "newreply"]
        ⟨Phase.IDLE, [⟨0, Role.user, "Hi", 0⟩, ⟨1, Role.assistant, "r", 1⟩]⟩
        0 "Hello" 5).session.log.length = 0 + 2 :=
  ⟨by decide,
    (editMessage_success_shape [] "newreply"
      ⟨Phase.IDLE, [⟨0, Role.user, "Hi", 0⟩, ⟨1, Role.assistant, "r", 1⟩]⟩
      0 "Hello" 5 (by decide) (by decide)).2.1⟩

/-- Claim C2: on a session whose (dense-indexed) log ends in an assistant
message, a successful regenerateLast keeps the log length, leaves every
message before the final one untouched, replaces only the content and
timestamp of the final assistant message, and leaves the sequence of user
messages (count and contents) unchanged: the preceding user message is
neither duplicated nor dropped. -/
theorem regenerateLast_preserves_users (rest : CompletionOracle)
    (reply : String) (s : ConvSession) (now : Nat)
    (hne : s.log ≠ [])
    (hlast : (s.log.getD (s.log.length - 1) dmsg).role = Role.assistant)
    (hdense : denseIndices s.log) :
    (regenerateLast (some reply :: rest) s now).outcome = Except.ok () ∧
    (regenerateLast (some reply :: rest) s now).session.log.length
      = s.log.length ∧
    (∀ i, i + 1 < s.log.length →
      (regenerateLast (some reply :: rest) s now).session.log.getD i dmsg
        = s.log.getD i dmsg) ∧
    (regenerateLast (some reply :: rest) s now).session.log.getD
        (s.log.length - 1) dmsg
      = { s.log.getD (s.log.length - 1) dmsg with
            content := reply, timestamp := now } ∧
    (regenerateLast (some reply :: rest) s now).session.log.filter
        (fun m => m.role == Role.user)
      = s.log.filter (fun m => m.role == Role.user) := by
  have hpos : 0 < s.log.length := List.length_pos.mpr hne
  have hidx : s.log.length - 1 < s.log.length := by omega
  have hgd : s.log.getD (s.log.length - 1) dmsg
      = s.log.getLast hne := by
    rw [List.getD_eq_getElem?_getD, List.getElem?_eq_getElem hidx,
      List.getLast_eq_getElem]
    rfl
  have hgl : s.log.getLast? = some (s.log.getLast hne) := by
    rw [List.getLast?_eq_getElem?, List.getElem?_eq_getElem hidx,
      List.getLast_eq_getElem]
  have hmain : regenerateLast (some reply :: rest) s now =
      ⟨rest, ⟨Phase.IDLE,
        appendMessage s.log.dropLast Role.assistant reply now⟩,
        Except.ok ()⟩ := by
    unfold regenerateLast
    rw [hgl]
    dsimp only
    rw [if_pos (by rw [← hgd]; exact hlast)]
  have hdl : s.log.dropLast.length = s.log.length - 1 :=
    List.length_dropLast s.log
  rw [hmain]
  refine ⟨rfl, ?_, ?_, ?_, ?_⟩
  · show (appendMessage s.log.dropLast Role.assistant reply now).length
      = s.log.length
    rw [appendMessage, List.length_append, hdl]
    simp only [List.length_cons, List.length_nil]
    omega
  · intro i hi
    show (appendMessage s.log.dropLast Role.assistant reply now).getD i dmsg
      = s.log.getD i dmsg
    rw [appendMessage, getD_append_left _ _ i (by rw [hdl]; omega),
      List.dropLast_eq_take]
    exact getD_take s.log _ i (by omega)
  · show (appendMessage s.log.dropLast Role.assistant reply now).getD
        (s.log.length - 1) dmsg
      = { s.log.getD (s.log.length - 1) dmsg with
            content := reply, timestamp := now }
    have h1 : (appendMessage s.log.dropLast Role.assistant reply now).getD
        (s.log.length - 1) dmsg
        = ⟨s.log.length - 1, Role.assistant, reply, now⟩ := by
      set D := s.log.dropLast with hD
      rw [appendMessage, ← hdl, getD_append_length]
    rw [h1]
    have hif := hdense (s.log.length - 1) hidx
    cases hmsg : s.log.getD (s.log.length - 1) dmsg with
    | mk mi mr mc mt =>
        rw [hmsg] at hif hlast
        simp only at hif hlast
        simp [hif, hlast]
  · show (appendMessage s.log.dropLast Role.assistant reply now).filter
        (fun m => m.role == Role.user)
      = s.log.filter (fun m => m.role == Role.user)
    have hsplit : s.log.dropLast ++ [s.log.getLast hne] = s.log :=
      List.dropLast_append_getLast hne
    have hlastrole : (s.log.getLast hne).role = Role.assistant := by
      rw [← hgd]; exact hlast
    conv_rhs => rw [← hsplit]
    rw [appendMessage, List.filter_append, List.filter_append]
    congr 1
    simp [hlastrole]

/-- Witness for C2 on a concrete user/assistant log. -/
theorem regenerateLast_preserves_users_witness :
    (regenerateLast [some "r2"]
        ⟨Phase.IDLE, [⟨0, Role.user, "Hi", 0⟩, ⟨1, Role.assistant, "r", 1⟩]⟩
        9).session.log.length
      = (⟨Phase.IDLE,
          [⟨0, Role.user, "Hi", 0⟩, ⟨1, Role.assistant, "r", 1⟩]⟩ :
          ConvSession).log.length :=
  (regenerateLast_preserves_users [] "r2"
    ⟨Phase.IDLE, [⟨0, Role.user, "Hi", 0⟩, ⟨1, Role.assistant, "r", 1⟩]⟩
    9 (by decide) (by decide) (by decide)).2.1

/-- sendMessage preserves dense indices in every outcome. -/
theorem sendMessage_dense (oracle : CompletionOracle) (s : ConvSession)
    (content : String) (now : Nat) (h : denseIndices s.log) :
    denseIndices (sendMessage oracle s content now).session.log := by
  cases oracle with
  | nil => exact denseIndices_append _ _ _ _ h
  | cons o rest =>
    cases o with
    | none => exact denseIndices_append _ _ _ _ h
    | some reply =>
        exact denseIndices_append _ _ _ _ (denseIndices_append _ _ _ _ h)

/-- editMessage preserves dense indices in every outcome. -/
theorem editMessage_dense (oracle : CompletionOracle) (s : ConvSession)
    (index : Nat) (newContent : String) (now : Nat) (h : denseIndices s.log) :
    denseIndices (editMessage oracle s index newContent now).session.log := by
  unfold editMessage
  by_cases hidx : index < s.log.length
  · rw [if_pos hidx]
    by_cases hrole : (s.log.getD index dmsg).role = Role.user
    · rw [if_pos hrole, truncateAfter_ok_of_lt s.log index hidx]
      have hd : denseIndices
          (setContent (s.log.take (index + 1)) index newContent) :=
        denseIndices_setContent _ _ _ (denseIndices_take _ _ h)
      cases oracle with
      | nil => exact hd
      | cons o rest =>
        cases o with
        | none => exact hd
        | some reply => exact denseIndices_append _ _ _ _ hd
    · rw [if_neg hrole]
      exact h
  · rw [if_neg hidx]
    exact h

/-- regenerateLast preserves dense indices in every outcome. -/
theorem regenerateLast_dense (oracle : CompletionOracle) (s : ConvSession)
    (now : Nat) (h : denseIndices s.log) :
    denseIndices (regenerateLast oracle s now).session.log := by
  unfold regenerateLast
  cases hgl : s.log.getLast? with
  | none => exact h
  | some m =>
    dsimp only
    by_cases hrole : m.role = Role.assistant
    · rw [if_pos hrole]
      have hd : denseIndices s.log.dropLast := denseIndices_dropLast _ h
      cases oracle with
      | nil => exact hd
      | cons o rest =>
        cases o with
        | none => exact hd
        | some reply => exact denseIndices_append _ _ _ _ hd
    · rw [if_neg hrole]
      exact h

/-- Every single controller operation preserves dense indices. -/
theorem applyOp_dense (oracle : CompletionOracle) (s : ConvSession) (op : Op)
    (h : denseIndices s.log) :
    denseIndices (applyOp oracle s op).session.log := by
  cases op with
  | send content now => exact sendMessage_dense oracle s content now h
  | edit index content now => exact editMessage_dense oracle s index content now h
  | regen now => exact regenerateLast_dense oracle s now h

/-- Claim C5: after any finite sequence of sendMessage, editMessage and
regenerateLast operations on a session whose log has dense indices (in
particular one that started empty), the resulting log still has dense,
zero-based, strictly increasing indices with no gaps after any
truncation: the message at each position i carries index i. -/
theorem applyOps_denseIndices (ops : List Op) (oracle : CompletionOracle)
    (s : ConvSession) (h : denseIndices s.log) :
    denseIndices (applyOps oracle s ops).2.log := by
  induction ops generalizing oracle s with
  | nil => exact h
  | cons op ops ih =>
    unfold applyOps
    exact ih _ _ (applyOp_dense oracle s op h)

/-- Witness for C5: a send, an edit and a regenerate applied to an empty
session keep the indices dense. -/
theorem applyOps_denseIndices_witness :
    denseIndices ((⟨Phase.IDLE, []⟩ : ConvSession).log) ∧
    denseIndices (applyOps [some "r1", some "r2", some "r3"]
      ⟨Phase.IDLE, []⟩
      [Op.send "Hi" 0, Op.edit 0 "Hello" 1, Op.regen 2]).2.log :=
  ⟨by decide,
    applyOps_denseIndices [Op.send "Hi" 0, Op.edit 0 "Hello" 1, Op.regen 2]
      [some "r1", some "r2", some "r3"] ⟨Phase.IDLE, []⟩ (by decide)⟩

/-- Claim C3: issuing (or regenerating, which is the identical operation) a
fresh token for agent A immediately revokes the token T that was active
for A: validate(T) answers TokenRevoked at every later instant, and the
at-most-one-valid-token-per-agent invariant still holds at every instant.
T is the token that lookup resolves for its value, it belongs to A and is
not yet revoked, and the generated value is fresh. -/
theorem issue_revokes_previous (store : TokenStore) (A newValue : String)
    (T : DeploymentToken) (now ttl : Nat)
    (hfind : store.tokens.find? (fun t => t.value == T.value) = some T)
    (hagent : T.agentId = A)
    (_hactive : T.revoked = false)
    (hfresh : newValue ≠ T.value)
    (hpre : ∀ inst, atMostOneActive store inst) :
    (∀ inst, validate (issue store A newValue now ttl) inst T.value
        = ValidateResult.TokenRevoked) ∧
    (∀ inst, atMostOneActive (issue store A newValue now ttl) inst) := by
  set g := fun t : DeploymentToken =>
    if t.agentId == A then { t with revoked := true } else t with hg
  have hgval : ∀ t : DeploymentToken, (g t).value = t.value := by
    intro t
    rw [hg]
    dsimp only
    split <;> rfl
  have hgagent : ∀ t : DeploymentToken, (g t).agentId = t.agentId := by
    intro t
    rw [hg]
    dsimp only
    split <;> rfl
  have htokens : (issue store A newValue now ttl).tokens
      = ⟨newValue, A, now, now + ttl, false⟩ :: store.tokens.map g := rfl
  constructor
  · intro inst
    unfold validate
    rw [htokens, List.find?_cons_of_neg _ (by simp [hfresh]), List.find?_map]
    have hpcomp : ((fun t : DeploymentToken => t.value == T.value) ∘ g)
        = fun t : DeploymentToken => t.value == T.value := by
      funext t
      simp [Function.comp, hgval]
    rw [hpcomp, hfind]
    have hgT : g T = { T with revoked := true } := by
      rw [hg]
      dsimp only
      rw [if_pos (by simp [hagent])]
    simp [hgT]
  · intro inst a
    have hstep : (issue store A newValue now ttl).tokens.filter
        (fun t => t.agentId == a && isActive inst t)
        = (⟨newValue, A, now, now + ttl, false⟩ ::
            store.tokens.map g).filter
          (fun t => t.agentId == a && isActive inst t) := by
      rw [htokens]
    show ((issue store A newValue now ttl).tokens.filter
        (fun t => t.agentId == a && isActive inst t)).length ≤ 1
    rw [hstep]
    by_cases ha : a = A
    · subst ha
      have hmapped : (store.tokens.map g).filter
          (fun t => t.agentId == a && isActive inst t) = [] := by
        rw [List.filter_eq_nil_iff]
        intro x hx
        obtain ⟨t, ht, rfl⟩ := List.mem_map.mp hx
        by_cases hA : (t.agentId == a) = true
        · have : g t = { t with revoked := true } := by
            rw [hg]
            dsimp only
            rw [if_pos hA]
          rw [this]
          simp [isActive]
        · have : g t = t := by
            rw [hg]
            dsimp only
            rw [if_neg hA]
          rw [this]
          simp [hA]
      rw [List.filter_cons, hmapped]
      split <;> simp
    · have hmapeq : ∀ l : List DeploymentToken,
          (l.map g).filter (fun t => t.agentId == a && isActive inst t)
            = l.filter (fun t => t.agentId == a && isActive inst t) := by
        intro l
        induction l with
        | nil => rfl
        | cons t l ih =>
          rw [List.map_cons, List.filter_cons, List.filter_cons, ih]
          by_cases hA : (t.agentId == A) = true
          · have hgt : g t = { t with revoked := true } := by
              rw [hg]
              dsimp only
              rw [if_pos hA]
            have h1 : ((g t).agentId == a) = false := by
              rw [hgt]
              have : t.agentId = A := by simpa using hA
              simp [this, Ne.symm ha]
            have h2 : (t.agentId == a) = false := by
              have : t.agentId = A := by simpa using hA
              simp [this, Ne.symm ha]
            rw [hgt] at h1
            simp [hgt, h1, h2]
          · have hgt : g t = t := by
              rw [hg]
              dsimp only
              rw [if_neg hA]
            rw [hgt]
      have hnewp : (((⟨newValue, A, now, now + ttl, false⟩ :
          DeploymentToken).agentId == a)
            && isActive inst ⟨newValue, A, now, now + ttl, false⟩) = false := by
        have : (A == a) = false := by simp [Ne.symm ha]
        simp [this]
      rw [List.filter_cons]
      simp only [hnewp, Bool.false_eq_true, if_false]
      rw [hmapeq store.tokens]
      exact hpre inst a

/-- Witness for C3 on a one-token store whose token is regenerated. -/
theorem issue_revokes_previous_witness :
    validate (issue ⟨[⟨"tok1", "A", 0, 100, false⟩]⟩ "A" "tok2" 10 24)
      20 "tok1" = ValidateResult.TokenRevoked :=
  (issue_revokes_previous ⟨[⟨"tok1", "A", 0, 100, false⟩]⟩ "A" "tok2"
    ⟨"tok1", "A", 0, 100, false⟩ 10 24 (by decide) rfl rfl (by decide)
    (fun inst a =>
      le_trans (List.length_filter_le _ _) (by norm_num))).1 20

end AgentBuilder
